import Mathlib

/-!
Formal model of the npm compromised-package scanner (`index.cjs` of
npm-attack-detect-project), together with proofs about its blacklist
matcher, its recursive `node_modules` tree walker, and its report
aggregation.

Conventions of the embedding:
* filesystem paths are lists of path segments (`Path := List String`);
  `path.join p s` is modelled by `pjoin`, which appends the segments of
  `s` (split at `'/'`) to `p`;
* the synchronous `fs` API is modelled by the `FileSystem` structure;
  calls that can throw (`readdirSync`, `realpathSync`) return an
  `Option`, `none` standing for the thrown error that the script
  catches and ignores;
* reading the `version` field of a `package.json` is collapsed into the
  `pkgJsonVersion` field of `FileSystem`: `some v` means the file
  exists, parses, and carries the non-empty version string `v`; `none`
  covers a missing file, a parse error, or an absent/empty (falsy)
  `version` field — every branch on which the script falls back to the
  literal string `"unknown"`.
-/

namespace NpmDetect

/-- A filesystem path, represented as the list of its segments. -/
abbrev Path := List String

/-- Helper for `splitSlash`: splits a character list at `'/'`,
accumulating the current segment in reverse. -/
def splitSlashAux : List Char → List Char → List String
  | [], acc => [String.mk acc.reverse]
  | c :: cs, acc =>
    if c = '/' then String.mk acc.reverse :: splitSlashAux cs []
    else splitSlashAux cs (c :: acc)

/-- Splits a string into path segments at `'/'`. -/
def splitSlash (s : String) : List String := splitSlashAux s.data []

/-- Model of `path.join(p, s)`: append the segments of `s` to `p`. -/
def pjoin (p : Path) (s : String) : Path := p ++ splitSlash s

/-- Model of `version.replace(/^v/, '')` (index.cjs lines 92 and 120):
strip a single leading `'v'` character, if present. -/
def normalizeVersion (v : String) : String :=
  match v.data with
  | c :: rest => if c = 'v' then String.mk rest else v
  | [] => v

/-- Model of building `COMPROMISED_PACKAGES_MAP` (index.cjs lines 90-94):
for each `{name, versions}` entry, store the versions normalized by
`normalizeVersion` under the name; a later entry with the same name
overwrites an earlier one, as `Map.set` does. -/
def mapOf (packages : List (String × List String)) : String → Option (List String) :=
  packages.foldl
    (fun m pkg => fun k =>
      if k = pkg.1 then some (pkg.2.map normalizeVersion) else m k)
    (fun _ => none)

/-- Model of `isCompromised(packageName, version)` (index.cjs lines 114-123):
`false` when the name is absent from the map, otherwise membership of the
normalized version in the entry's normalized version list. -/
def isCompromised (m : String → Option (List String)) (packageName version : String) : Bool :=
  match m packageName with
  | none => false
  | some compromisedVersions => compromisedVersions.contains (normalizeVersion version)

/-- Helper for `replaceFirstSlash`: replace the first `'/'` in a
character list by `'+'`. -/
def replaceFirstSlashAux : List Char → List Char
  | [] => []
  | c :: rest => if c = '/' then '+' :: rest else c :: replaceFirstSlashAux rest

/-- Model of `targetPackage.replace('/', '+')` (index.cjs line 167):
a string pattern in JavaScript `String.replace` replaces only the first
occurrence. -/
def replaceFirstSlash (s : String) : String := String.mk (replaceFirstSlashAux s.data)

/-- Model of `s.startsWith(pre)` on JavaScript strings. -/
def strStartsWith (s pre : String) : Bool := pre.data.isPrefixOf s.data

/-- One entry returned by `fs.readdirSync(p, { withFileTypes: true })`. -/
structure DirEntry where
  name : String
  isDir : Bool
  isSymlink : Bool
deriving DecidableEq, Repr

/-- The fragment of the synchronous `fs` API used by the scanner. -/
structure FileSystem where
  existsSync : Path → Bool
  realpathSync : Path → Option Path
  readdirSync : Path → Option (List DirEntry)
  pkgJsonVersion : Path → Option String

/-- Well-formedness of a filesystem, as guaranteed by a real directory
tree: the entries of one directory carry pairwise distinct names, and a
directory entry name never contains a `'/'`. -/
structure FileSystem.WF (fs : FileSystem) : Prop where
  nodupNames : ∀ p es, fs.readdirSync p = some es → (es.map DirEntry.name).Nodup
  slashFree : ∀ p es, fs.readdirSync p = some es → ∀ e ∈ es, '/' ∉ e.name.data

/-- One element of the array returned by `findPackageRecursively` /
`findInPnpmDirectory`: `{ path, version, depth, type }`. -/
structure FoundPkg where
  path : Path
  version : String
  depth : Nat
  type : String
deriving DecidableEq, Repr

/-- Model of the version-extraction snippet repeated in index.cjs
(lines 179-189, 266-276, 300-310): read `packagePath/package.json` and
fall back to `"unknown"` when the file is missing, unparsable, or has a
falsy `version` field. -/
def readPkgVersion (fs : FileSystem) (packagePath : Path) : String :=
  match fs.pkgJsonVersion (pjoin packagePath "package.json") with
  | some v => v
  | none => "unknown"

/-- The `for (const entry of entries)` loop of `findInPnpmDirectory`
(index.cjs lines 170-199), processing the entries in order. -/
def pnpmLoop (fs : FileSystem) (pnpmPath : Path) (targetPackage searchPattern : String)
    (depth : Nat) : List DirEntry → List FoundPkg
  | [] => []
  | entry :: rest =>
    (if !entry.isDir && !entry.isSymlink then []
     else if strStartsWith entry.name searchPattern then
       let packageInNodeModules :=
         pjoin (pjoin (pjoin pnpmPath entry.name) "node_modules") targetPackage
       if fs.existsSync packageInNodeModules then
         [⟨packageInNodeModules, readPkgVersion fs packageInNodeModules, depth, "installed"⟩]
       else []
     else []) ++ pnpmLoop fs pnpmPath targetPackage searchPattern depth rest

/-- Model of `findInPnpmDirectory(pnpmPath, targetPackage, depth)`
(index.cjs lines 157-205): direct pattern match of content-store entry
names against `targetPackage.replace('/', '+') + '@'`; a thrown
`readdirSync` is caught and yields the empty result. -/
def findInPnpmDirectory (fs : FileSystem) (pnpmPath : Path) (targetPackage : String)
    (depth : Nat) : List FoundPkg :=
  match fs.readdirSync pnpmPath with
  | none => []
  | some entries =>
    pnpmLoop fs pnpmPath targetPackage (replaceFirstSlash targetPackage ++ "@") depth entries

mutual

/-- Model of `findPackageRecursively(nodeModulesPath, targetPackage, depth,
maxDepth, visitedPaths)` (index.cjs lines 216-333). The shared mutable
visited set of the script is threaded through the return value; the walk
returns the found packages together with the final visited set. -/
def findPackageRecursively (fs : FileSystem) (nodeModulesPath : Path) (targetPackage : String)
    (depth maxDepth : Nat) (visitedPaths : List Path) : List FoundPkg × List Path :=
  if hdm : maxDepth < depth then ([], visitedPaths)
  else if fs.existsSync nodeModulesPath = false then ([], visitedPaths)
  else
    have hdep : depth ≤ maxDepth := Nat.le_of_not_lt hdm
    match fs.realpathSync nodeModulesPath with
    | some realPath =>
      if visitedPaths.contains realPath then ([], visitedPaths)
      else walkEntries fs nodeModulesPath targetPackage depth maxDepth
        (realPath :: visitedPaths) hdep
    | none =>
      walkEntries fs nodeModulesPath targetPackage depth maxDepth visitedPaths hdep
termination_by (maxDepth + 1 - depth, 0, 0)
decreasing_by all_goals simp_wf <;> simp [Prod.lex_def] <;> omega

/-- The `readdirSync` call and the entry loop of `findPackageRecursively`
(index.cjs lines 235-330); a thrown `readdirSync` is caught and yields
the results gathered so far (none). -/
def walkEntries (fs : FileSystem) (nodeModulesPath : Path) (targetPackage : String)
    (depth maxDepth : Nat) (visitedPaths : List Path) (hdep : depth ≤ maxDepth) :
    List FoundPkg × List Path :=
  match fs.readdirSync nodeModulesPath with
  | none => ([], visitedPaths)
  | some entries =>
    walkList fs nodeModulesPath targetPackage depth maxDepth visitedPaths hdep entries
termination_by (maxDepth - depth, 4, 0)
decreasing_by all_goals simp_wf <;> simp [Prod.lex_def] <;> omega

/-- The `for (const entry of entries)` loop of `findPackageRecursively`
(index.cjs lines 238-327), processing the entries in order and threading
the visited set. -/
def walkList (fs : FileSystem) (nodeModulesPath : Path) (targetPackage : String)
    (depth maxDepth : Nat) (visitedPaths : List Path) (hdep : depth ≤ maxDepth) :
    List DirEntry → List FoundPkg × List Path
  | [] => ([], visitedPaths)
  | entry :: rest =>
    let st := walkEntry fs nodeModulesPath targetPackage depth maxDepth visitedPaths hdep entry
    let r2 := walkList fs nodeModulesPath targetPackage depth maxDepth st.2 hdep rest
    (st.1 ++ r2.1, r2.2)
termination_by entries => (maxDepth - depth, 3, entries.length)
decreasing_by all_goals simp_wf <;> simp [Prod.lex_def] <;> omega

/-- The body of the entry loop of `findPackageRecursively` for one entry
(index.cjs lines 239-326): skip non-directories, use the `.pnpm` direct
match, enumerate a scope directory, or handle a regular package. -/
def walkEntry (fs : FileSystem) (nodeModulesPath : Path) (targetPackage : String)
    (depth maxDepth : Nat) (visitedPaths : List Path) (hdep : depth ≤ maxDepth)
    (entry : DirEntry) : List FoundPkg × List Path :=
  if !entry.isDir && !entry.isSymlink then ([], visitedPaths)
  else
    let entryPath := pjoin nodeModulesPath entry.name
    if entry.name = ".pnpm" then
      (findInPnpmDirectory fs entryPath targetPackage (depth + 1), visitedPaths)
    else if strStartsWith entry.name "@" then
      match fs.readdirSync entryPath with
      | none => ([], visitedPaths)
      | some scopedEntries =>
        walkScoped fs entryPath entry.name targetPackage depth maxDepth visitedPaths hdep
          scopedEntries
    else
      let matched : List FoundPkg :=
        if entry.name = targetPackage then
          [⟨entryPath, readPkgVersion fs entryPath, depth, "installed"⟩]
        else []
      let nested := pjoin entryPath "node_modules"
      if fs.existsSync nested then
        let r := findPackageRecursively fs nested targetPackage (depth + 1) maxDepth visitedPaths
        (matched ++ r.1, r.2)
      else (matched, visitedPaths)
termination_by (maxDepth - depth, 2, 0)
decreasing_by all_goals simp_wf <;> simp [Prod.lex_def] <;> omega

/-- The `for (const scopedEntry of scopedEntries)` loop of
`findPackageRecursively` (index.cjs lines 258-292). -/
def walkScoped (fs : FileSystem) (entryPath : Path) (scopeName targetPackage : String)
    (depth maxDepth : Nat) (visitedPaths : List Path) (hdep : depth ≤ maxDepth) :
    List DirEntry → List FoundPkg × List Path
  | [] => ([], visitedPaths)
  | se :: rest =>
    let st := walkScopedEntry fs entryPath scopeName targetPackage depth maxDepth visitedPaths
      hdep se
    let r2 := walkScoped fs entryPath scopeName targetPackage depth maxDepth st.2 hdep rest
    (st.1 ++ r2.1, r2.2)
termination_by ses => (maxDepth - depth, 1, ses.length)
decreasing_by all_goals simp_wf <;> simp [Prod.lex_def] <;> omega

/-- The body of the scoped-entry loop for one entry (index.cjs lines
259-291): match `scope/child` against the target, then recurse into the
child's nested `node_modules`. -/
def walkScopedEntry (fs : FileSystem) (entryPath : Path) (scopeName targetPackage : String)
    (depth maxDepth : Nat) (visitedPaths : List Path) (hdep : depth ≤ maxDepth)
    (se : DirEntry) : List FoundPkg × List Path :=
  if !se.isDir && !se.isSymlink then ([], visitedPaths)
  else
    let fullPackageName := scopeName ++ "/" ++ se.name
    let packagePath := pjoin entryPath se.name
    let matched : List FoundPkg :=
      if fullPackageName = targetPackage then
        [⟨packagePath, readPkgVersion fs packagePath, depth, "installed"⟩]
      else []
    let nested := pjoin packagePath "node_modules"
    if fs.existsSync nested then
      let r := findPackageRecursively fs nested targetPackage (depth + 1) maxDepth visitedPaths
      (matched ++ r.1, r.2)
    else (matched, visitedPaths)
termination_by (maxDepth - depth, 0, 1)
decreasing_by all_goals simp_wf <;> simp [Prod.lex_def] <;> omega

end

/-- The top-level call `findPackageRecursively(paths.nodeModules, pkg)`
(index.cjs line 486), with the default arguments `depth = 0`,
`maxDepth = 5` and a fresh empty visited set. -/
def findPackage (fs : FileSystem) (nodeModulesPath : Path) (targetPackage : String) :
    List FoundPkg :=
  (findPackageRecursively fs nodeModulesPath targetPackage 0 5 []).1

/-! ### Matcher claims (C1, C2, C3) -/

/-- C1, counterexample: the spec claims that a package recorded with an
empty compromised-version set is flagged for every installed version;
but for the entry `("evil", [])` the map records the empty list and
`isCompromised` returns `false` on version `"1.0.0"` — an empty list has
no members, and the code has no wildcard branch. -/
theorem c1_counterexample :
    mapOf [("evil", [])] "evil" = some [] ∧
    isCompromised (mapOf [("evil", [])]) "evil" "1.0.0" = false := by
  decide

/-- C1, amended: for every package name recorded in the blacklist map
with an empty compromised-version set, `isCompromised` returns `false`
for every version string — an empty set flags nothing, there is no
"any version" wildcard in the code. -/
theorem c1_empty_set_never_matches (packages : List (String × List String))
    (name version : String) (h : mapOf packages name = some []) :
    isCompromised (mapOf packages) name version = false := by
  simp [isCompromised, h]

/-- Witness for `c1_empty_set_never_matches` at a concrete input. -/
theorem c1_witness :
    mapOf [("evil", [])] "evil" = some [] ∧
    isCompromised (mapOf [("evil", [])]) "evil" "9.9.9" = false :=
  ⟨by decide, c1_empty_set_never_matches [("evil", [])] "evil" "9.9.9" (by decide)⟩

/-- C2: `isCompromised` returns `false` whenever the name is absent from
the blacklist map; for a name present with a non-empty version list it
returns `true` iff the version with one leading `'v'` stripped is, by
exact string equality, a member of that list; and concretely a version
one patch away from a listed one (`"1.0.1"` vs `"1.0.0"`) is not
flagged — no semantic-version range logic. -/
theorem c2_exact_version_match :
    (∀ packages name version, mapOf packages name = none →
        isCompromised (mapOf packages) name version = false) ∧
    (∀ packages name version cv, mapOf packages name = some cv → cv ≠ [] →
        (isCompromised (mapOf packages) name version = true ↔
          cv.contains (normalizeVersion version) = true)) ∧
    isCompromised (mapOf [("evil", ["1.0.0"])]) "evil" "1.0.1" = false := by
  refine ⟨?_, ?_, by decide⟩
  · intro packages name version h
    simp [isCompromised, h]
  · intro packages name version cv h _
    simp [isCompromised, h]

/-- Witness for `c2_exact_version_match` at concrete inputs. -/
theorem c2_witness :
    isCompromised (mapOf [("left", ["2.0.0"])]) "gone" "2.0.0" = false ∧
    (isCompromised (mapOf [("left", ["2.0.0"])]) "left" "v2.0.0" = true ↔
      (["2.0.0"] : List String).contains (normalizeVersion "v2.0.0") = true) :=
  ⟨c2_exact_version_match.1 [("left", ["2.0.0"])] "gone" "2.0.0" (by decide),
   c2_exact_version_match.2.1 [("left", ["2.0.0"])] "left" "v2.0.0" ["2.0.0"]
     (by decide) (by decide)⟩

/-- C3, counterexample: normalization strips only one leading `'v'`, so
it is not idempotent on every string: `"vv1.2.3"` normalizes to
`"v1.2.3"`, which normalizes again to `"1.2.3"`. -/
theorem c3_counterexample :
    ¬ normalizeVersion (normalizeVersion "vv1.2.3") = normalizeVersion "vv1.2.3" := by
  decide

/-- C3, amended: version normalization is idempotent on every string
that does not begin with two `'v'` characters (the only inputs on which
stripping one leading `'v'` can expose another), and
`normalize("v1.2.3") = normalize("1.2.3")` holds. -/
theorem c3_normalize_idempotent :
    (∀ v : String, v.data.take 2 ≠ ['v', 'v'] →
        normalizeVersion (normalizeVersion v) = normalizeVersion v) ∧
    normalizeVersion "v1.2.3" = normalizeVersion "1.2.3" := by
  refine ⟨?_, by decide⟩
  intro v h
  obtain ⟨l⟩ := v
  cases l with
  | nil => rfl
  | cons c t =>
    by_cases hc : c = 'v'
    · subst hc
      cases t with
      | nil => rfl
      | cons c2 t2 =>
        have hc2 : c2 ≠ 'v' := by
          intro h2
          exact h (by simp [h2])
        simp [normalizeVersion, hc2]
    · simp [normalizeVersion, hc]

/-- Witness for `c3_normalize_idempotent` at a concrete input. -/
theorem c3_witness :
    normalizeVersion (normalizeVersion "v1.2.3") = normalizeVersion "v1.2.3" :=
  c3_normalize_idempotent.1 "v1.2.3" (by decide)

/-! ### Basic walker lemmas -/

/-- A walk entered with `depth > maxDepth` returns no packages and
leaves the visited set unchanged (index.cjs lines 220-222). -/
theorem find_depth_guard (fs : FileSystem) (p : Path) (t : String) (d maxD : Nat)
    (V : List Path) (h : maxD < d) :
    findPackageRecursively fs p t d maxD V = ([], V) := by
  rw [findPackageRecursively]
  simp [h]

/-- A walk whose root resolves to a real path already in the visited set
returns no packages and leaves the visited set unchanged (index.cjs
lines 226-229). -/
theorem find_visited_guard (fs : FileSystem) (p : Path) (t : String) (d maxD : Nat)
    (V : List Path) (rp : Path) (hr : fs.realpathSync p = some rp)
    (hc : V.contains rp = true) :
    findPackageRecursively fs p t d maxD V = ([], V) := by
  have hm : rp ∈ V := by simpa using hc
  rw [findPackageRecursively]
  split
  · rfl
  · simp [hr, hm]

/-- A `readdirSync` failure on the walk root is caught: the walk returns
the (empty) results gathered so far instead of failing (index.cjs lines
235-236, 328-330). -/
theorem walkEntries_readdir_fail (fs : FileSystem) (p : Path) (t : String)
    (d maxD : Nat) (V : List Path) (hdep : d ≤ maxD)
    (hr : fs.readdirSync p = none) :
    walkEntries fs p t d maxD V hdep = ([], V) := by
  rw [walkEntries]
  simp [hr]

/-- Processing a `.pnpm` directory entry delegates to the direct-match
search and does not recurse: the visited set comes back unchanged
(index.cjs lines 245-249). -/
theorem walkEntry_pnpm (fs : FileSystem) (p : Path) (t : String) (d maxD : Nat)
    (V : List Path) (hdep : d ≤ maxD) (e : DirEntry)
    (hskip : (!e.isDir && !e.isSymlink) = false) (hname : e.name = ".pnpm") :
    walkEntry fs p t d maxD V hdep e =
      (findInPnpmDirectory fs (pjoin p e.name) t (d + 1), V) := by
  rw [walkEntry]
  simp [hskip, hname]

/-! ### C4: cycle guard -/

/-- A concrete directory tree with a symlink ring: the project's
`node_modules` contains the symlinked package `A`, whose nested
`node_modules` contains `evil` and the symlinked package `B`, whose
nested `node_modules` resolves back to the real path of the project's
`node_modules` (a cycle A→B→A). -/
def cycleFs : FileSystem where
  existsSync := fun p =>
    if p = ["proj", "node_modules"] then true
    else if p = ["proj", "node_modules", "A", "node_modules"] then true
    else if p = ["proj", "node_modules", "A", "node_modules", "evil"] then true
    else if p = ["proj", "node_modules", "A", "node_modules", "B", "node_modules"] then true
    else false
  realpathSync := fun p =>
    if p = ["proj", "node_modules"] then some ["real-nm"]
    else if p = ["proj", "node_modules", "A", "node_modules"] then some ["real-A-nm"]
    else if p = ["proj", "node_modules", "A", "node_modules", "B", "node_modules"] then
      some ["real-nm"]
    else some p
  readdirSync := fun p =>
    if p = ["proj", "node_modules"] then some [⟨"A", false, true⟩]
    else if p = ["proj", "node_modules", "A", "node_modules"] then
      some [⟨"evil", true, false⟩, ⟨"B", false, true⟩]
    else some []
  pkgJsonVersion := fun p =>
    if p = ["proj", "node_modules", "A", "node_modules", "evil", "package.json"] then
      some "1.0.0"
    else none

/-- C4: every recursive call whose root resolves to a real path already
recorded in the walk's visited set returns the empty result with the
visited set unchanged; consequently the walk over the symlink cycle
A→B→A of `cycleFs` terminates, emitting `evil` exactly once. -/
theorem c4_no_revisit :
    (∀ fs p t d maxD V rp, fs.realpathSync p = some rp → V.contains rp = true →
        findPackageRecursively fs p t d maxD V = ([], V)) ∧
    findPackage cycleFs ["proj", "node_modules"] "evil" =
      [⟨["proj", "node_modules", "A", "node_modules", "evil"], "1.0.0", 1, "installed"⟩] := by
  refine ⟨fun fs p t d maxD V rp hr hc => find_visited_guard fs p t d maxD V rp hr hc, ?_⟩
  simp [findPackage, findPackageRecursively, walkEntries, walkList, walkEntry, walkScoped,
    walkScopedEntry, cycleFs, pjoin, splitSlash, splitSlashAux, readPkgVersion,
    strStartsWith, findInPnpmDirectory, pnpmLoop]

/-- Witness for `c4_no_revisit` at a concrete input: a walk of
`cycleFs` started with the root's real path already visited returns
empty. -/
theorem c4_witness :
    cycleFs.realpathSync ["proj", "node_modules"] = some ["real-nm"] ∧
    ([["real-nm"]] : List Path).contains ["real-nm"] = true ∧
    findPackageRecursively cycleFs ["proj", "node_modules"] "evil" 0 5 [["real-nm"]] =
      ([], [["real-nm"]]) :=
  ⟨by decide, by decide,
   c4_no_revisit.1 cycleFs ["proj", "node_modules"] "evil" 0 5 [["real-nm"]] ["real-nm"]
     (by decide) (by decide)⟩

/-! ### Path lemmas -/

theorem splitSlashAux_no_slash :
    ∀ (l acc : List Char), '/' ∉ l → splitSlashAux l acc = [String.mk (acc.reverse ++ l)] := by
  intro l
  induction l with
  | nil => intro acc _; simp [splitSlashAux]
  | cons c cs ih =>
    intro acc h
    have hc : ¬ c = '/' := fun hh => h (by simp [hh])
    rw [splitSlashAux, if_neg hc, ih (c :: acc) (fun hm => h (List.mem_cons_of_mem _ hm))]
    simp

/-- A string without `'/'` is a single path segment. -/
theorem splitSlash_no_slash (s : String) (h : '/' ∉ s.data) : splitSlash s = [s] := by
  obtain ⟨l⟩ := s
  rw [splitSlash, splitSlashAux_no_slash l [] h]
  simp

/-- Joining a slash-free name appends exactly one segment. -/
theorem pjoin_single (p : Path) (s : String) (h : '/' ∉ s.data) : pjoin p s = p ++ [s] := by
  rw [pjoin, splitSlash_no_slash s h]

theorem append_cons_ne {a b : String} (p : Path) {s tl : Path} (hab : a ≠ b) :
    p ++ a :: s ≠ p ++ b :: tl := by
  intro h
  have h2 := List.append_cancel_left h
  injection h2 with h3 _
  exact hab h3

theorem append_length_ne (p : Path) {x y : Path} (h : x.length ≠ y.length) :
    p ++ x ≠ p ++ y := by
  intro hh
  exact h (by rw [List.append_cancel_left hh])

/-! ### Characterization of the content-store direct match -/

/-- The entry loop of `findInPnpmDirectory` emits exactly one package per
entry that is a directory or symlink, whose name starts with the search
pattern, and whose nested `node_modules` holds the target. -/
theorem pnpmLoop_eq (fs : FileSystem) (pnpmPath : Path) (t pat : String) (d : Nat) :
    ∀ es, pnpmLoop fs pnpmPath t pat d es =
      (es.filter fun e => (e.isDir || e.isSymlink) && strStartsWith e.name pat &&
          fs.existsSync (pjoin (pjoin (pjoin pnpmPath e.name) "node_modules") t)).map
        fun e =>
          ⟨pjoin (pjoin (pjoin pnpmPath e.name) "node_modules") t,
            readPkgVersion fs (pjoin (pjoin (pjoin pnpmPath e.name) "node_modules") t),
            d, "installed"⟩ := by
  intro es
  induction es with
  | nil => simp [pnpmLoop]
  | cons e rest ih =>
    cases hD : e.isDir <;> cases hS : e.isSymlink <;>
      cases hP : strStartsWith e.name pat <;>
      cases hE : fs.existsSync (pjoin (pjoin (pjoin pnpmPath e.name) "node_modules") t) <;>
      simp [pnpmLoop, List.filter_cons, hD, hS, hP, hE, ih]

/-! ### Structural invariants of the walker results -/

/-- The invariant proved for the package list produced by one walk below
`root`: every emitted package lies strictly below `root`, its recorded
depth is at most `maxDepth + 1`, and the emitted paths are pairwise
distinct. -/
def WalkOk (maxD : Nat) (root : Path) (l : List FoundPkg) : Prop :=
  (∀ r ∈ l, (∃ e s, r.path = root ++ e :: s) ∧ r.depth ≤ maxD + 1) ∧
  (l.map FoundPkg.path).Nodup

theorem walkOk_nil (maxD : Nat) (root : Path) : WalkOk maxD root [] := by
  constructor <;> simp

/-- Results of the content-store direct match: one hit per matching
entry name, all lying below the `.pnpm` directory with pairwise distinct
paths, at the recorded depth `dd`. -/
theorem findInPnpm_ok (fs : FileSystem) (hwf : fs.WF) (pnpmPath : Path) (t : String)
    (dd : Nat) :
    (∀ r ∈ findInPnpmDirectory fs pnpmPath t dd,
        (∃ en, r.path = pnpmPath ++ en :: "node_modules" :: splitSlash t) ∧ r.depth = dd) ∧
    ((findInPnpmDirectory fs pnpmPath t dd).map FoundPkg.path).Nodup := by
  cases hrd : fs.readdirSync pnpmPath with
  | none => simp [findInPnpmDirectory, hrd]
  | some pes =>
    have hfd : findInPnpmDirectory fs pnpmPath t dd =
        pnpmLoop fs pnpmPath t (replaceFirstSlash t ++ "@") dd pes := by
      simp [findInPnpmDirectory, hrd]
    rw [hfd, pnpmLoop_eq]
    have hsf : ∀ e ∈ pes, '/' ∉ e.name.data := hwf.slashFree pnpmPath pes hrd
    have hpath : ∀ e ∈ pes.filter fun e => (e.isDir || e.isSymlink) &&
        strStartsWith e.name (replaceFirstSlash t ++ "@") &&
        fs.existsSync (pjoin (pjoin (pjoin pnpmPath e.name) "node_modules") t),
        pjoin (pjoin (pjoin pnpmPath e.name) "node_modules") t =
          pnpmPath ++ e.name :: "node_modules" :: splitSlash t := by
      intro e he
      have h1 : '/' ∉ e.name.data := hsf e (List.mem_of_mem_filter he)
      rw [pjoin_single pnpmPath e.name h1,
        pjoin_single (pnpmPath ++ [e.name]) "node_modules" (by decide), pjoin]
      simp
    constructor
    · intro r hr
      rw [List.mem_map] at hr
      obtain ⟨e, he, rfl⟩ := hr
      refine ⟨⟨e.name, ?_⟩, rfl⟩
      exact hpath e he
    · rw [List.map_map]
      have : ((pes.filter fun e => (e.isDir || e.isSymlink) &&
          strStartsWith e.name (replaceFirstSlash t ++ "@") &&
          fs.existsSync (pjoin (pjoin (pjoin pnpmPath e.name) "node_modules") t)).map
            (FoundPkg.path ∘ fun e =>
              (⟨pjoin (pjoin (pjoin pnpmPath e.name) "node_modules") t,
                readPkgVersion fs (pjoin (pjoin (pjoin pnpmPath e.name) "node_modules") t),
                dd, "installed"⟩ : FoundPkg))) =
          ((pes.filter fun e => (e.isDir || e.isSymlink) &&
            strStartsWith e.name (replaceFirstSlash t ++ "@") &&
            fs.existsSync (pjoin (pjoin (pjoin pnpmPath e.name) "node_modules") t)).map
              DirEntry.name).map
            fun en => pnpmPath ++ en :: "node_modules" :: splitSlash t := by
        rw [List.map_map]
        exact List.map_congr_left fun e he => hpath e he
      rw [this]
      refine List.Nodup.map ?_ ?_
      · intro a b hab
        simpa using List.append_cancel_left hab
      · exact List.Nodup.sublist (List.Sublist.map DirEntry.name (List.filter_sublist pes))
          (hwf.nodupNames pnpmPath pes hrd)

/-- Invariant for the results of processing one scoped entry: every
emitted package lies strictly below `entryPath/se.name`, with depth at
most `maxDepth + 1` and pairwise distinct paths. -/
theorem walkScopedEntry_ok (fs : FileSystem) (t : String) (maxD : Nat) (entryPath : Path)
    (scopeName : String) (d : Nat) (V : List Path) (hdep : d ≤ maxD) (se : DirEntry)
    (hsf : '/' ∉ se.name.data)
    (HF : ∀ p' V', WalkOk maxD p' (findPackageRecursively fs p' t (d + 1) maxD V').1) :
    (∀ r ∈ (walkScopedEntry fs entryPath scopeName t d maxD V hdep se).1,
        (∃ s, r.path = entryPath ++ se.name :: s) ∧ r.depth ≤ maxD + 1) ∧
    ((walkScopedEntry fs entryPath scopeName t d maxD V hdep se).1.map FoundPkg.path).Nodup := by
  have hps : pjoin entryPath se.name = entryPath ++ [se.name] := pjoin_single _ _ hsf
  have hpn : pjoin (pjoin entryPath se.name) "node_modules" =
      entryPath ++ [se.name, "node_modules"] := by
    rw [hps, pjoin_single _ _ (by decide), List.append_assoc]
    rfl
  by_cases hskip : (!se.isDir && !se.isSymlink) = true
  · rw [walkScopedEntry, if_pos hskip]
    constructor <;> simp
  · have hskip' : (!se.isDir && !se.isSymlink) = false := by
      revert hskip; cases (!se.isDir && !se.isSymlink) <;> simp
    by_cases hex : fs.existsSync (pjoin (pjoin entryPath se.name) "node_modules") = true
    · have heq : walkScopedEntry fs entryPath scopeName t d maxD V hdep se =
          ((if scopeName ++ "/" ++ se.name = t then
              [⟨pjoin entryPath se.name, readPkgVersion fs (pjoin entryPath se.name), d,
                "installed"⟩]
            else []) ++
            (findPackageRecursively fs (pjoin (pjoin entryPath se.name) "node_modules") t
              (d + 1) maxD V).1,
           (findPackageRecursively fs (pjoin (pjoin entryPath se.name) "node_modules") t
              (d + 1) maxD V).2) := by
        rw [walkScopedEntry]
        simp [hskip', hex]
      obtain ⟨HFm, HFn⟩ := HF (pjoin (pjoin entryPath se.name) "node_modules") V
      rw [heq]
      constructor
      · intro r hr
        simp only [List.mem_append] at hr
        rcases hr with hr | hr
        · rcases Classical.em (scopeName ++ "/" ++ se.name = t) with hm | hm
          · rw [if_pos hm] at hr
            simp only [List.mem_singleton] at hr
            subst hr
            exact ⟨⟨[], by simpa using hps⟩, by simp; omega⟩
          · rw [if_neg hm] at hr
            simp at hr
        · obtain ⟨⟨e, s, hpath⟩, hdepth⟩ := HFm r hr
          refine ⟨⟨"node_modules" :: e :: s, ?_⟩, hdepth⟩
          rw [hpath, hpn]
          simp
      · rw [List.map_append, List.nodup_append]
        refine ⟨?_, HFn, ?_⟩
        · rcases Classical.em (scopeName ++ "/" ++ se.name = t) with hm | hm <;>
            simp [hm]
        · intro a ha hb
          simp only [List.mem_map] at ha hb
          obtain ⟨r1, hr1, hp1⟩ := ha
          obtain ⟨r2, hr2, hp2⟩ := hb
          rcases Classical.em (scopeName ++ "/" ++ se.name = t) with hm | hm
          · rw [if_pos hm] at hr1
            simp only [List.mem_singleton] at hr1
            subst hr1
            obtain ⟨⟨e, s, hpath⟩, _⟩ := HFm r2 hr2
            rw [← hp1] at hp2
            rw [hpath, hpn, hps] at hp2
            have := congrArg List.length hp2
            simp at this
          · rw [if_neg hm] at hr1
            simp at hr1
    · have heq : walkScopedEntry fs entryPath scopeName t d maxD V hdep se =
          ((if scopeName ++ "/" ++ se.name = t then
              [⟨pjoin entryPath se.name, readPkgVersion fs (pjoin entryPath se.name), d,
                "installed"⟩]
            else []), V) := by
        rw [walkScopedEntry]
        simp [hskip', hex]
      rw [heq]
      constructor
      · intro r hr
        rcases Classical.em (scopeName ++ "/" ++ se.name = t) with hm | hm
        · rw [if_pos hm] at hr
          simp only [List.mem_singleton] at hr
          subst hr
          exact ⟨⟨[], by simpa using hps⟩, by simp; omega⟩
        · rw [if_neg hm] at hr
          simp at hr
      · rcases Classical.em (scopeName ++ "/" ++ se.name = t) with hm | hm <;> simp [hm]

/-- Invariant for the scoped-entry loop: every emitted package lies below
`entryPath/se.name` for some processed scoped entry `se`, and the
emitted paths are pairwise distinct. -/
theorem walkScoped_ok (fs : FileSystem) (t : String) (maxD : Nat) (entryPath : Path)
    (scopeName : String) (d : Nat) (hdep : d ≤ maxD)
    (HF : ∀ p' V', WalkOk maxD p' (findPackageRecursively fs p' t (d + 1) maxD V').1) :
    ∀ ses : List DirEntry, (ses.map DirEntry.name).Nodup →
      (∀ se ∈ ses, '/' ∉ se.name.data) → ∀ V,
      (∀ r ∈ (walkScoped fs entryPath scopeName t d maxD V hdep ses).1,
          (∃ se ∈ ses, ∃ s, r.path = entryPath ++ se.name :: s) ∧ r.depth ≤ maxD + 1) ∧
      ((walkScoped fs entryPath scopeName t d maxD V hdep ses).1.map FoundPkg.path).Nodup := by
  intro ses
  induction ses with
  | nil =>
    intro _ _ V
    simp only [walkScoped]
    constructor <;> simp
  | cons se rest ih =>
    intro hnd hsf V
    have hse : '/' ∉ se.name.data := hsf se (List.mem_cons_self se rest)
    obtain ⟨hst, hstn⟩ := walkScopedEntry_ok fs t maxD entryPath scopeName d V hdep se hse HF
    obtain ⟨hr2, hr2n⟩ := ih (by simpa using hnd.of_cons)
      (fun x hx => hsf x (List.mem_cons_of_mem _ hx))
      (walkScopedEntry fs entryPath scopeName t d maxD V hdep se).2
    simp only [walkScoped]
    constructor
    · intro r hr
      simp only [List.mem_append] at hr
      rcases hr with hr | hr
      · obtain ⟨⟨s, hpath⟩, hdepth⟩ := hst r hr
        exact ⟨⟨se, List.mem_cons_self se rest, s, hpath⟩, hdepth⟩
      · obtain ⟨⟨se', hse', s, hpath⟩, hdepth⟩ := hr2 r hr
        exact ⟨⟨se', List.mem_cons_of_mem _ hse', s, hpath⟩, hdepth⟩
    · rw [List.map_append, List.nodup_append]
      refine ⟨hstn, hr2n, ?_⟩
      intro a ha hb
      simp only [List.mem_map] at ha hb
      obtain ⟨r1, hr1, hp1⟩ := ha
      obtain ⟨r2, hr2', hp2⟩ := hb
      obtain ⟨⟨s1, hpath1⟩, _⟩ := hst r1 hr1
      obtain ⟨⟨se', hse', s2, hpath2⟩, _⟩ := hr2 r2 hr2'
      have hne : se.name ≠ se'.name := by
        intro hcontra
        have hmem : se'.name ∈ rest.map DirEntry.name := List.mem_map_of_mem _ hse'
        rw [← hcontra] at hmem
        exact (List.nodup_cons.mp (by simpa using hnd)).1 hmem
      have hab : entryPath ++ se.name :: s1 = entryPath ++ se'.name :: s2 := by
        rw [← hpath1, ← hpath2, hp1, hp2]
      exact append_cons_ne entryPath hne hab

/-- Invariant for the results of processing one entry of a `node_modules`
directory: every emitted package lies strictly below `p/e.name`, with
depth at most `maxDepth + 1` and pairwise distinct paths. -/
theorem walkEntry_ok (fs : FileSystem) (hwf : fs.WF) (t : String) (maxD : Nat) (p : Path)
    (d : Nat) (V : List Path) (hdep : d ≤ maxD) (e : DirEntry) (hsf : '/' ∉ e.name.data)
    (HF : ∀ p' V', WalkOk maxD p' (findPackageRecursively fs p' t (d + 1) maxD V').1) :
    (∀ r ∈ (walkEntry fs p t d maxD V hdep e).1,
        (∃ s, r.path = p ++ e.name :: s) ∧ r.depth ≤ maxD + 1) ∧
    ((walkEntry fs p t d maxD V hdep e).1.map FoundPkg.path).Nodup := by
  have hpe : pjoin p e.name = p ++ [e.name] := pjoin_single _ _ hsf
  have hpn : pjoin (pjoin p e.name) "node_modules" = p ++ [e.name, "node_modules"] := by
    rw [hpe, pjoin_single _ _ (by decide), List.append_assoc]
    rfl
  by_cases hskip : (!e.isDir && !e.isSymlink) = true
  · rw [walkEntry, if_pos hskip]
    constructor <;> simp
  · have hskip' : (!e.isDir && !e.isSymlink) = false := by
      revert hskip; cases (!e.isDir && !e.isSymlink) <;> simp
    by_cases hpnq : e.name = ".pnpm"
    · rw [walkEntry_pnpm fs p t d maxD V hdep e hskip' hpnq]
      obtain ⟨hm, hn⟩ := findInPnpm_ok fs hwf (pjoin p e.name) t (d + 1)
      constructor
      · intro r hr
        obtain ⟨⟨en, hpath⟩, hdepth⟩ := hm r hr
        refine ⟨⟨en :: "node_modules" :: splitSlash t, ?_⟩, by omega⟩
        rw [hpath, hpe]
        simp
      · exact hn
    · by_cases hat : strStartsWith e.name "@" = true
      · cases hrd : fs.readdirSync (pjoin p e.name) with
        | none =>
          have heq : walkEntry fs p t d maxD V hdep e = ([], V) := by
            rw [walkEntry]; simp [hskip', hpnq, hat, hrd]
          rw [heq]
          constructor <;> simp
        | some ses =>
          have heq : walkEntry fs p t d maxD V hdep e =
              walkScoped fs (pjoin p e.name) e.name t d maxD V hdep ses := by
            rw [walkEntry]; simp [hskip', hpnq, hat, hrd]
          rw [heq]
          obtain ⟨hm, hn⟩ := walkScoped_ok fs t maxD (pjoin p e.name) e.name d hdep HF ses
            (hwf.nodupNames _ _ hrd) (hwf.slashFree _ _ hrd) V
          constructor
          · intro r hr
            obtain ⟨⟨se, _, s, hpath⟩, hdepth⟩ := hm r hr
            refine ⟨⟨se.name :: s, ?_⟩, hdepth⟩
            rw [hpath, hpe]
            simp
          · exact hn
      · by_cases hex : fs.existsSync (pjoin (pjoin p e.name) "node_modules") = true
        · have heq : walkEntry fs p t d maxD V hdep e =
              ((if e.name = t then
                  [⟨pjoin p e.name, readPkgVersion fs (pjoin p e.name), d, "installed"⟩]
                else []) ++
                (findPackageRecursively fs (pjoin (pjoin p e.name) "node_modules") t
                  (d + 1) maxD V).1,
               (findPackageRecursively fs (pjoin (pjoin p e.name) "node_modules") t
                  (d + 1) maxD V).2) := by
            rw [walkEntry]
            simp [hskip', hpnq, hat, hex]
          obtain ⟨HFm, HFn⟩ := HF (pjoin (pjoin p e.name) "node_modules") V
          rw [heq]
          constructor
          · intro r hr
            simp only [List.mem_append] at hr
            rcases hr with hr | hr
            · rcases Classical.em (e.name = t) with hm | hm
              · rw [if_pos hm] at hr
                simp only [List.mem_singleton] at hr
                subst hr
                exact ⟨⟨[], by simpa using hpe⟩, by simp; omega⟩
              · rw [if_neg hm] at hr
                simp at hr
            · obtain ⟨⟨en, s, hpath⟩, hdepth⟩ := HFm r hr
              refine ⟨⟨"node_modules" :: en :: s, ?_⟩, hdepth⟩
              rw [hpath, hpn]
              simp
          · rw [List.map_append, List.nodup_append]
            refine ⟨?_, HFn, ?_⟩
            · rcases Classical.em (e.name = t) with hm | hm <;> simp [hm]
            · intro a ha hb
              simp only [List.mem_map] at ha hb
              obtain ⟨r1, hr1, hp1⟩ := ha
              obtain ⟨r2, hr2, hp2⟩ := hb
              rcases Classical.em (e.name = t) with hm | hm
              · rw [if_pos hm] at hr1
                simp only [List.mem_singleton] at hr1
                subst hr1
                obtain ⟨⟨en, s, hpath⟩, _⟩ := HFm r2 hr2
                rw [← hp1] at hp2
                rw [hpath, hpn, hpe] at hp2
                have := congrArg List.length hp2
                simp at this
              · rw [if_neg hm] at hr1
                simp at hr1
        · have heq : walkEntry fs p t d maxD V hdep e =
              ((if e.name = t then
                  [⟨pjoin p e.name, readPkgVersion fs (pjoin p e.name), d, "installed"⟩]
                else []), V) := by
            rw [walkEntry]
            simp [hskip', hpnq, hat, hex]
          rw [heq]
          constructor
          · intro r hr
            rcases Classical.em (e.name = t) with hm | hm
            · rw [if_pos hm] at hr
              simp only [List.mem_singleton] at hr
              subst hr
              exact ⟨⟨[], by simpa using hpe⟩, by simp; omega⟩
            · rw [if_neg hm] at hr
              simp at hr
          · rcases Classical.em (e.name = t) with hm | hm <;> simp [hm]

/-- Invariant for the entry loop: every emitted package lies below
`p/e.name` for some processed entry `e`, and the emitted paths are
pairwise distinct. -/
theorem walkList_ok (fs : FileSystem) (hwf : fs.WF) (t : String) (maxD : Nat) (p : Path)
    (d : Nat) (hdep : d ≤ maxD)
    (HF : ∀ p' V', WalkOk maxD p' (findPackageRecursively fs p' t (d + 1) maxD V').1) :
    ∀ entries : List DirEntry, (entries.map DirEntry.name).Nodup →
      (∀ e ∈ entries, '/' ∉ e.name.data) → ∀ V,
      (∀ r ∈ (walkList fs p t d maxD V hdep entries).1,
          (∃ e ∈ entries, ∃ s, r.path = p ++ e.name :: s) ∧ r.depth ≤ maxD + 1) ∧
      ((walkList fs p t d maxD V hdep entries).1.map FoundPkg.path).Nodup := by
  intro entries
  induction entries with
  | nil =>
    intro _ _ V
    simp only [walkList]
    constructor <;> simp
  | cons e rest ih =>
    intro hnd hsf V
    have hce : '/' ∉ e.name.data := hsf e (List.mem_cons_self e rest)
    obtain ⟨hst, hstn⟩ := walkEntry_ok fs hwf t maxD p d V hdep e hce HF
    obtain ⟨hr2, hr2n⟩ := ih (by simpa using hnd.of_cons)
      (fun x hx => hsf x (List.mem_cons_of_mem _ hx))
      (walkEntry fs p t d maxD V hdep e).2
    simp only [walkList]
    constructor
    · intro r hr
      simp only [List.mem_append] at hr
      rcases hr with hr | hr
      · obtain ⟨⟨s, hpath⟩, hdepth⟩ := hst r hr
        exact ⟨⟨e, List.mem_cons_self e rest, s, hpath⟩, hdepth⟩
      · obtain ⟨⟨e', he', s, hpath⟩, hdepth⟩ := hr2 r hr
        exact ⟨⟨e', List.mem_cons_of_mem _ he', s, hpath⟩, hdepth⟩
    · rw [List.map_append, List.nodup_append]
      refine ⟨hstn, hr2n, ?_⟩
      intro a ha hb
      simp only [List.mem_map] at ha hb
      obtain ⟨r1, hr1, hp1⟩ := ha
      obtain ⟨r2, hr2', hp2⟩ := hb
      obtain ⟨⟨s1, hpath1⟩, _⟩ := hst r1 hr1
      obtain ⟨⟨e', he', s2, hpath2⟩, _⟩ := hr2 r2 hr2'
      have hne : e.name ≠ e'.name := by
        intro hcontra
        have hmem : e'.name ∈ rest.map DirEntry.name := List.mem_map_of_mem _ he'
        rw [← hcontra] at hmem
        exact (List.nodup_cons.mp (by simpa using hnd)).1 hmem
      have hab : p ++ e.name :: s1 = p ++ e'.name :: s2 := by
        rw [← hpath1, ← hpath2, hp1, hp2]
      exact append_cons_ne p hne hab

/-- Invariant for a full walk: every emitted package lies strictly below
the walk root, its recorded depth is at most `maxDepth + 1`, and the
emitted paths are pairwise distinct. -/
theorem find_ok (fs : FileSystem) (hwf : fs.WF) (t : String) (maxD : Nat) :
    ∀ n d p V, maxD + 1 - d ≤ n →
      WalkOk maxD p (findPackageRecursively fs p t d maxD V).1 := by
  intro n
  induction n with
  | zero =>
    intro d p V h
    have hdm : maxD < d := by omega
    rw [find_depth_guard fs p t d maxD V hdm]
    exact walkOk_nil maxD p
  | succ n ih =>
    intro d p V h
    by_cases hdm : maxD < d
    · rw [find_depth_guard fs p t d maxD V hdm]
      exact walkOk_nil maxD p
    · have hdep : d ≤ maxD := Nat.le_of_not_lt hdm
      have HF : ∀ p' V', WalkOk maxD p' (findPackageRecursively fs p' t (d + 1) maxD V').1 :=
        fun p' V' => ih (d + 1) p' V' (by omega)
      by_cases hex : fs.existsSync p = false
      · have heq : findPackageRecursively fs p t d maxD V = ([], V) := by
          rw [findPackageRecursively]
          simp [hdm, hex]
        rw [heq]
        exact walkOk_nil maxD p
      · have hwe : ∀ V', WalkOk maxD p (walkEntries fs p t d maxD V' hdep).1 := by
          intro V'
          cases hrd : fs.readdirSync p with
          | none =>
            have heq : walkEntries fs p t d maxD V' hdep = ([], V') := by
              rw [walkEntries]; simp [hrd]
            rw [heq]
            exact walkOk_nil maxD p
          | some entries =>
            have heq : walkEntries fs p t d maxD V' hdep =
                walkList fs p t d maxD V' hdep entries := by
              rw [walkEntries]; simp [hrd]
            rw [heq]
            obtain ⟨hm, hn⟩ := walkList_ok fs hwf t maxD p d hdep HF entries
              (hwf.nodupNames _ _ hrd) (hwf.slashFree _ _ hrd) V'
            refine ⟨fun r hr => ?_, hn⟩
            obtain ⟨⟨e, _, s, hpath⟩, hdepth⟩ := hm r hr
            exact ⟨⟨e.name, s, hpath⟩, hdepth⟩
        cases hrp : fs.realpathSync p with
        | some rp =>
          by_cases hc : V.contains rp = true
          · have hm : rp ∈ V := by simpa using hc
            have heq : findPackageRecursively fs p t d maxD V = ([], V) := by
              rw [findPackageRecursively]
              simp [hdm, hex, hrp, hm]
            rw [heq]
            exact walkOk_nil maxD p
          · have hm : rp ∉ V := by simpa using hc
            have heq : findPackageRecursively fs p t d maxD V =
                walkEntries fs p t d maxD (rp :: V) hdep := by
              rw [findPackageRecursively]
              simp [hdm, hex, hrp, hm]
            rw [heq]
            exact hwe (rp :: V)
        | none =>
          have heq : findPackageRecursively fs p t d maxD V =
              walkEntries fs p t d maxD V hdep := by
            rw [findPackageRecursively]
            simp [hdm, hex, hrp]
          rw [heq]
          exact hwe V

/-- Specialization of `find_ok` to an arbitrary call. -/
theorem find_walkOk (fs : FileSystem) (hwf : fs.WF) (t : String) (maxD d : Nat) (p : Path)
    (V : List Path) : WalkOk maxD p (findPackageRecursively fs p t d maxD V).1 :=
  find_ok fs hwf t maxD (maxD + 1 - d) d p V (Nat.le_refl _)

/-! ### C6: content-store direct match -/

/-- A concrete tree where the scoped package `@scope/evil` is present
only through the content-store entry `@scope+evil@1.0.0` of a `.pnpm`
directory, with its nested install directory. -/
def pnpmFs : FileSystem where
  existsSync := fun p =>
    if p = ["nm"] then true
    else if p = ["nm", ".pnpm", "@scope+evil@1.0.0", "node_modules", "@scope", "evil"] then true
    else false
  realpathSync := fun p => some p
  readdirSync := fun p =>
    if p = ["nm"] then some [⟨".pnpm", true, false⟩]
    else if p = ["nm", ".pnpm"] then
      some [⟨"@scope+evil@1.0.0", true, false⟩, ⟨"other@2.0.0", true, false⟩]
    else some []
  pkgJsonVersion := fun p =>
    if p = ["nm", ".pnpm", "@scope+evil@1.0.0", "node_modules", "@scope", "evil",
        "package.json"] then some "1.0.0"
    else none

/-- C6: on a content-store directory the walker applies the direct
pattern match instead of recursing; `findInPnpmDirectory` emits one
package for exactly those entries (directories or symlinks) whose name
starts with the target name with `'/'` replaced by `'+'` followed by
`'@'` and whose nested install directory holds the target; and the
scoped package `@scope/evil`, present only via `@scope+evil@1.0.0`, is
located. -/
theorem c6_content_store_direct_match :
    (∀ fs pnpmPath t d entries, fs.readdirSync pnpmPath = some entries →
        findInPnpmDirectory fs pnpmPath t d =
          (entries.filter fun e => (e.isDir || e.isSymlink) &&
              strStartsWith e.name (replaceFirstSlash t ++ "@") &&
              fs.existsSync (pjoin (pjoin (pjoin pnpmPath e.name) "node_modules") t)).map
            fun e =>
              ⟨pjoin (pjoin (pjoin pnpmPath e.name) "node_modules") t,
                readPkgVersion fs (pjoin (pjoin (pjoin pnpmPath e.name) "node_modules") t),
                d, "installed"⟩) ∧
    (∀ fs p t d maxD V (hdep : d ≤ maxD) (e : DirEntry),
        (!e.isDir && !e.isSymlink) = false → e.name = ".pnpm" →
        walkEntry fs p t d maxD V hdep e =
          (findInPnpmDirectory fs (pjoin p e.name) t (d + 1), V)) ∧
    findPackage pnpmFs ["nm"] "@scope/evil" =
      [⟨["nm", ".pnpm", "@scope+evil@1.0.0", "node_modules", "@scope", "evil"], "1.0.0", 1,
        "installed"⟩] := by
  refine ⟨?_, fun fs p t d maxD V hdep e h1 h2 =>
    walkEntry_pnpm fs p t d maxD V hdep e h1 h2, ?_⟩
  · intro fs pnpmPath t d entries h
    have hfd : findInPnpmDirectory fs pnpmPath t d =
        pnpmLoop fs pnpmPath t (replaceFirstSlash t ++ "@") d entries := by
      simp [findInPnpmDirectory, h]
    rw [hfd, pnpmLoop_eq]
  · simp [findPackage, findPackageRecursively, walkEntries, walkList, walkEntry, walkScoped,
      walkScopedEntry, pnpmFs, pjoin, splitSlash, splitSlashAux, readPkgVersion,
      strStartsWith, findInPnpmDirectory, pnpmLoop, replaceFirstSlash, replaceFirstSlashAux,
      List.isPrefixOf]

/-- Witness for `c6_content_store_direct_match` at a concrete input. -/
theorem c6_witness :
    findInPnpmDirectory pnpmFs ["nm", ".pnpm"] "@scope/evil" 1 =
      (([⟨"@scope+evil@1.0.0", true, false⟩, ⟨"other@2.0.0", true, false⟩] :
          List DirEntry).filter fun e => (e.isDir || e.isSymlink) &&
            strStartsWith e.name (replaceFirstSlash "@scope/evil" ++ "@") &&
            pnpmFs.existsSync (pjoin (pjoin (pjoin ["nm", ".pnpm"] e.name) "node_modules")
              "@scope/evil")).map
        fun e =>
          ⟨pjoin (pjoin (pjoin ["nm", ".pnpm"] e.name) "node_modules") "@scope/evil",
            readPkgVersion pnpmFs
              (pjoin (pjoin (pjoin ["nm", ".pnpm"] e.name) "node_modules") "@scope/evil"),
            1, "installed"⟩ :=
  c6_content_store_direct_match.1 pnpmFs ["nm", ".pnpm"] "@scope/evil" 1 _ (by decide)

/-! ### C8: per-node failures are skipped -/

/-- A concrete tree with a broken node: the package directory `broken`
has a nested `node_modules` on which both `realpathSync` and
`readdirSync` throw, and no manifest is readable anywhere, so the
matching package `evil` gets version `"unknown"`. -/
def brokenFs : FileSystem where
  existsSync := fun p =>
    if p = ["nm"] then true
    else if p = ["nm", "broken", "node_modules"] then true
    else false
  realpathSync := fun p =>
    if p = ["nm", "broken", "node_modules"] then none else some p
  readdirSync := fun p =>
    if p = ["nm"] then some [⟨"broken", true, false⟩, ⟨"evil", true, false⟩]
    else none
  pkgJsonVersion := fun _ => none

/-- C8: a per-node failure is caught and never propagated — a
`readdirSync` failure makes that node contribute nothing (the walk goes
on); a matching package whose manifest read fails is still emitted, with
version `"unknown"`; and in the concrete tree `brokenFs` the walk runs
past the unreadable `broken/node_modules` and still reports `evil`
(with version `"unknown"`). -/
theorem c8_per_node_failures :
    (∀ fs p t d maxD V (hdep : d ≤ maxD), fs.readdirSync p = none →
        walkEntries fs p t d maxD V hdep = ([], V)) ∧
    (∀ fs p t d maxD V (hdep : d ≤ maxD) (e : DirEntry),
        (!e.isDir && !e.isSymlink) = false → e.name ≠ ".pnpm" →
        strStartsWith e.name "@" = false → e.name = t →
        fs.pkgJsonVersion (pjoin (pjoin p e.name) "package.json") = none →
        (⟨pjoin p e.name, "unknown", d, "installed"⟩ : FoundPkg) ∈
          (walkEntry fs p t d maxD V hdep e).1) ∧
    findPackage brokenFs ["nm"] "evil" = [⟨["nm", "evil"], "unknown", 0, "installed"⟩] := by
  refine ⟨fun fs p t d maxD V hdep h =>
    walkEntries_readdir_fail fs p t d maxD V hdep h, ?_, ?_⟩
  · intro fs p t d maxD V hdep e hskip hpn hat hm hver
    subst hm
    rw [walkEntry]
    have hro : readPkgVersion fs (pjoin p e.name) = "unknown" := by
      rw [readPkgVersion, hver]
    simp only [hskip, Bool.false_eq_true, if_false, if_neg hpn, hat]
    split <;> simp [hro]
  · simp [findPackage, findPackageRecursively, walkEntries, walkList, walkEntry, walkScoped,
      walkScopedEntry, brokenFs, pjoin, splitSlash, splitSlashAux, readPkgVersion,
      strStartsWith, findInPnpmDirectory, pnpmLoop, List.isPrefixOf]

/-- Witness for `c8_per_node_failures` at concrete inputs. -/
theorem c8_witness :
    walkEntries brokenFs ["nm", "broken", "node_modules"] "evil" 1 5 [] (by decide) =
      ([], []) ∧
    (⟨pjoin ["nm"] "evil", "unknown", 0, "installed"⟩ : FoundPkg) ∈
      (walkEntry brokenFs ["nm"] "evil" 0 5 [] (by decide) ⟨"evil", true, false⟩).1 :=
  ⟨c8_per_node_failures.1 brokenFs ["nm", "broken", "node_modules"] "evil" 1 5 []
     (by decide) (by decide),
   c8_per_node_failures.2.1 brokenFs ["nm"] "evil" 0 5 [] (by decide) ⟨"evil", true, false⟩
     (by decide) (by decide) (by decide) (by decide) (by decide)⟩

/-! ### C5: depth bound -/

/-- The nested install chain `nm/a/node_modules/a/…` of depth `n`. -/
def deepChain : Nat → Path
  | 0 => ["nm"]
  | n + 1 => deepChain n ++ ["a", "node_modules"]

/-- A concrete tree with a chain of nested install directories of depth
5 whose deepest `node_modules` holds a `.pnpm` content store containing
the target `evil`. -/
def deepPnpmFs : FileSystem where
  existsSync := fun p =>
    if p = deepChain 0 then true
    else if p = deepChain 1 then true
    else if p = deepChain 2 then true
    else if p = deepChain 3 then true
    else if p = deepChain 4 then true
    else if p = deepChain 5 then true
    else if p = deepChain 5 ++ [".pnpm", "evil@9.9.9", "node_modules", "evil"] then true
    else false
  realpathSync := fun p => some p
  readdirSync := fun p =>
    if p = deepChain 5 then some [⟨".pnpm", true, false⟩]
    else if p = deepChain 5 ++ [".pnpm"] then some [⟨"evil@9.9.9", true, false⟩]
    else if p = deepChain 0 then some [⟨"a", true, false⟩]
    else if p = deepChain 1 then some [⟨"a", true, false⟩]
    else if p = deepChain 2 then some [⟨"a", true, false⟩]
    else if p = deepChain 3 then some [⟨"a", true, false⟩]
    else if p = deepChain 4 then some [⟨"a", true, false⟩]
    else some []
  pkgJsonVersion := fun p =>
    if p = deepChain 5 ++ [".pnpm", "evil@9.9.9", "node_modules", "evil", "package.json"] then
      some "9.9.9"
    else none

/-- C5, counterexample: with the default `maxDepth = 5`, the walk of
`deepPnpmFs` reaches the `.pnpm` store at depth 5 and the direct match
emits an `InstalledPackageRef` recorded at depth 6 — beyond the bound —
because `findInPnpmDirectory` is called with `depth + 1` and performs no
depth check (index.cjs lines 244-249). -/
theorem c5_counterexample :
    (findPackage deepPnpmFs ["nm"] "evil").map FoundPkg.depth = [6] := by
  simp [findPackage, findPackageRecursively, walkEntries, walkList, walkEntry, walkScoped,
    walkScopedEntry, deepPnpmFs, deepChain, pjoin, splitSlash, splitSlashAux, readPkgVersion,
    strStartsWith, findInPnpmDirectory, pnpmLoop, replaceFirstSlash, replaceFirstSlashAux,
    List.isPrefixOf]

/-- Well-formedness of `deepPnpmFs`. -/
theorem deepPnpmFs_wf : deepPnpmFs.WF := by
  constructor
  · intro p es h
    simp only [deepPnpmFs] at h
    split_ifs at h <;> cases h <;> decide
  · intro p es h e he
    simp only [deepPnpmFs] at h
    split_ifs at h <;> cases h <;> simp at he <;> subst he <;> decide

/-- C5, amended: a call entered with `depth > maxDepth` returns the
empty result, and on a well-formed tree every emitted reference has
recorded depth at most `maxDepth + 1`; the depth `maxDepth + 1` is
reachable only through the `.pnpm` direct match (see
`c5_counterexample`). -/
theorem c5_depth_bound :
    (∀ fs p t d maxD V, maxD < d → findPackageRecursively fs p t d maxD V = ([], V)) ∧
    (∀ fs : FileSystem, fs.WF → ∀ p t d maxD V r,
        r ∈ (findPackageRecursively fs p t d maxD V).1 → r.depth ≤ maxD + 1) := by
  refine ⟨fun fs p t d maxD V h => find_depth_guard fs p t d maxD V h, ?_⟩
  intro fs hwf p t d maxD V r hr
  exact ((find_walkOk fs hwf t maxD d p V).1 r hr).2

/-- Witness for `c5_depth_bound` at concrete inputs. -/
theorem c5_witness :
    findPackageRecursively deepPnpmFs ["nm"] "evil" 6 5 [] = ([], []) ∧
    (⟨deepChain 5 ++ [".pnpm", "evil@9.9.9", "node_modules", "evil"], "9.9.9", 6,
        "installed"⟩ : FoundPkg).depth ≤ 5 + 1 :=
  ⟨c5_depth_bound.1 deepPnpmFs ["nm"] "evil" 6 5 [] (by decide),
   c5_depth_bound.2 deepPnpmFs deepPnpmFs_wf ["nm"] "evil" 0 5 []
     ⟨deepChain 5 ++ [".pnpm", "evil@9.9.9", "node_modules", "evil"], "9.9.9", 6, "installed"⟩
     (by simp [findPackage, findPackageRecursively, walkEntries, walkList, walkEntry,
       walkScoped, walkScopedEntry, deepPnpmFs, deepChain, pjoin, splitSlash, splitSlashAux,
       readPkgVersion, strStartsWith, findInPnpmDirectory, pnpmLoop, replaceFirstSlash,
       replaceFirstSlashAux, List.isPrefixOf])⟩

/-! ### Report aggregation -/

/-- One element of `results.foundInNodeModules` (index.cjs lines 501-508
and 551-559). -/
structure NodeModulesFinding where
  package : String
  version : String
  path : Path
  depth : Nat
  type : String
  compromisedVersions : List String
deriving DecidableEq, Repr

/-- One element of the array returned by
`scanPackageJsonDependencies` (index.cjs lines 345-474); its traversal
mirrors the walker's and is irrelevant to the claims below, so the
aggregation takes the list as an input. -/
structure DepScanResult where
  foundIn : Path
  foundInPackageName : String
  compromisedPackage : String
  version : String
  depth : Nat
deriving DecidableEq, Repr

/-- Model of the installed-package pass (index.cjs lines 485-523): for
each blacklist key in order, walk the tree with the default arguments,
keep only the instances whose version is compromised, and record each
with type `"installed"` together with the entry's compromised-version
list. -/
def resultsFoundInstalled (fs : FileSystem) (nodeModulesPath : Path)
    (packages : List (String × List String)) : List NodeModulesFinding :=
  (packages.map Prod.fst).flatMap fun pkg =>
    ((findPackage fs nodeModulesPath pkg).filter fun inst =>
        isCompromised (mapOf packages) pkg inst.version).map fun inst =>
      { package := pkg, version := inst.version, path := inst.path, depth := inst.depth,
        type := "installed", compromisedVersions := (mapOf packages pkg).getD [] }

/-- Model of `results.foundInNodeModules` after both passes (index.cjs
lines 485-571): the installed findings followed by the dependency
references, the latter recorded with type `"dependency-reference"`. -/
def resultsFoundInNodeModules (fs : FileSystem) (nodeModulesPath : Path)
    (packages : List (String × List String)) (depResults : List DepScanResult) :
    List NodeModulesFinding :=
  resultsFoundInstalled fs nodeModulesPath packages ++
    depResults.map fun dep =>
      { package := dep.compromisedPackage, version := dep.version, path := dep.foundIn,
        depth := dep.depth, type := "dependency-reference",
        compromisedVersions := (mapOf packages dep.compromisedPackage).getD [] }

/-- One element of `results.foundInPackageJson` (part_000 lines 517-521). -/
structure PackageJsonFinding where
  package : String
  version : String
  type : String
deriving DecidableEq, Repr

/-- One element of `results.foundInPackageLock` (part_000 lines 127, 141). -/
structure PackageLockFinding where
  package : String
  version : String
deriving DecidableEq, Repr

/-- Model of the risk-level computation of the legacy scanner with
lockfile support (part_000 lines 553-560). -/
def summaryCriticalLevel (foundInNodeModules : List NodeModulesFinding)
    (foundInPackageJson : List PackageJsonFinding)
    (foundInPackageLock : List PackageLockFinding) : String :=
  if foundInNodeModules.length > 0 then "critical"
  else if foundInPackageJson.length > 0 then "high"
  else if foundInPackageLock.length > 0 then "medium"
  else "none"

/-- Model of the risk-level computation of the current scanner, which
has no lockfile mode (index.cjs lines 632-637). -/
def summaryCriticalLevelV2 (foundInNodeModules : List NodeModulesFinding)
    (foundInPackageJson : List PackageJsonFinding) : String :=
  if foundInNodeModules.length > 0 then "critical"
  else if foundInPackageJson.length > 0 then "high"
  else "none"

/-! ### C7: risk-level precedence -/

/-- C7: the risk level is computed by strict precedence — any
`foundInNodeModules` finding (these are exactly the InstalledInstance
and DependencyReference findings) gives `"critical"`; otherwise any
`foundInPackageJson` (ManifestDeclaration) finding gives `"high"`;
otherwise, in the legacy lockfile mode, a lockfile-only finding gives
`"medium"`; otherwise `"none"`. The current scanner's computation agrees
with the legacy one on an empty lockfile list. -/
theorem c7_risk_level_precedence :
    (∀ nm pj pl, nm ≠ [] → summaryCriticalLevel nm pj pl = "critical") ∧
    (∀ nm pj pl, nm = [] → pj ≠ [] → summaryCriticalLevel nm pj pl = "high") ∧
    (∀ nm pj pl, nm = [] → pj = [] → pl ≠ [] → summaryCriticalLevel nm pj pl = "medium") ∧
    (∀ nm pj pl, nm = [] → pj = [] → pl = [] → summaryCriticalLevel nm pj pl = "none") ∧
    (∀ fs nmp packages depResults f,
        f ∈ resultsFoundInNodeModules fs nmp packages depResults →
        f.type = "installed" ∨ f.type = "dependency-reference") ∧
    (∀ nm pj, summaryCriticalLevelV2 nm pj = summaryCriticalLevel nm pj []) := by
  refine ⟨?_, ?_, ?_, ?_, ?_, ?_⟩
  · intro nm pj pl h
    simp [summaryCriticalLevel, List.length_pos.mpr h]
  · intro nm pj pl h1 h2
    subst h1
    simp [summaryCriticalLevel, List.length_pos.mpr h2]
  · intro nm pj pl h1 h2 h3
    subst h1; subst h2
    simp [summaryCriticalLevel, List.length_pos.mpr h3]
  · intro nm pj pl h1 h2 h3
    subst h1; subst h2; subst h3
    simp [summaryCriticalLevel]
  · intro fs nmp packages depResults f hf
    rw [resultsFoundInNodeModules, List.mem_append] at hf
    rcases hf with hf | hf
    · left
      rw [resultsFoundInstalled, List.mem_flatMap] at hf
      obtain ⟨pkg, _, hf⟩ := hf
      rw [List.mem_map] at hf
      obtain ⟨inst, _, rfl⟩ := hf
      rfl
    · right
      rw [List.mem_map] at hf
      obtain ⟨dep, _, rfl⟩ := hf
      rfl
  · intro nm pj
    rw [summaryCriticalLevel, summaryCriticalLevelV2]
    simp

/-- Witness for `c7_risk_level_precedence` at concrete inputs. -/
theorem c7_witness :
    summaryCriticalLevel [⟨"evil", "1.0.0", ["nm", "evil"], 0, "installed", ["1.0.0"]⟩]
        [] [] = "critical" ∧
    summaryCriticalLevel [] [⟨"evil", "^1.0.0", "dependencies"⟩] [] = "high" ∧
    summaryCriticalLevel [] [] [⟨"evil", "1.0.0"⟩] = "medium" ∧
    summaryCriticalLevel [] [] [] = "none" :=
  ⟨c7_risk_level_precedence.1 _ [] [] (by decide),
   c7_risk_level_precedence.2.1 [] _ [] rfl (by decide),
   c7_risk_level_precedence.2.2.1 [] [] _ rfl rfl (by decide),
   c7_risk_level_precedence.2.2.2.1 [] [] [] rfl rfl rfl⟩

/-! ### C9: installed findings are duplicate-free -/

/-- Blocks produced for pairwise distinct keys, each block carrying its
key in the `package` field and pairwise distinct paths, concatenate into
a list with pairwise distinct `(package, path)` pairs. -/
theorem flatMap_pairs_nodup (g : String → List NodeModulesFinding) :
    ∀ names : List String, names.Nodup →
      (∀ pkg f, f ∈ g pkg → f.package = pkg) →
      (∀ pkg, ((g pkg).map fun f => (f.package, f.path)).Nodup) →
      ((names.flatMap g).map fun f => (f.package, f.path)).Nodup := by
  intro names
  induction names with
  | nil => intro _ _ _; simp
  | cons n rest ih =>
    intro hnd hpkg hblock
    rw [List.flatMap_cons, List.map_append, List.nodup_append]
    refine ⟨hblock n, ih hnd.of_cons hpkg hblock, ?_⟩
    intro a ha hb
    simp only [List.mem_map] at ha hb
    obtain ⟨f1, hf1, rfl⟩ := ha
    obtain ⟨f2, hf2, hEq⟩ := hb
    obtain ⟨pkg2, hpkg2, hf2m⟩ := List.mem_flatMap.mp hf2
    have h1 : f1.package = n := hpkg n f1 hf1
    have h2 : f2.package = pkg2 := hpkg pkg2 f2 hf2m
    have hne : pkg2 ≠ n := fun hcon => (List.nodup_cons.mp hnd).1 (hcon ▸ hpkg2)
    apply hne
    have h3 := congrArg Prod.fst hEq
    simp only at h3
    rw [← h2, h3, h1]

/-- C9: a given (package, path) pair appears at most once among the
findings of type `"installed"` in `results.foundInNodeModules`, for any
run on a well-formed tree with pairwise distinct blacklist keys
(as `Map.keys()` yields). -/
theorem c9_installed_findings_dedup (fs : FileSystem) (nodeModulesPath : Path)
    (packages : List (String × List String)) (depResults : List DepScanResult)
    (hwf : fs.WF) (hnd : (packages.map Prod.fst).Nodup) :
    (((resultsFoundInNodeModules fs nodeModulesPath packages depResults).filter
        fun f => f.type == "installed").map fun f => (f.package, f.path)).Nodup := by
  rw [resultsFoundInNodeModules, List.filter_append]
  have hdep0 : (depResults.map fun dep =>
      ({ package := dep.compromisedPackage, version := dep.version, path := dep.foundIn,
         depth := dep.depth, type := "dependency-reference",
         compromisedVersions := (mapOf packages dep.compromisedPackage).getD [] } :
        NodeModulesFinding)).filter (fun f => f.type == "installed") = [] := by
    rw [List.filter_eq_nil]
    intro a ha
    rw [List.mem_map] at ha
    obtain ⟨dep, _, rfl⟩ := ha
    simp
  rw [hdep0, List.append_nil]
  have hfilter : (resultsFoundInstalled fs nodeModulesPath packages).filter
      (fun f => f.type == "installed") = resultsFoundInstalled fs nodeModulesPath packages := by
    apply List.filter_eq_self.mpr
    intro f hf
    rw [resultsFoundInstalled, List.mem_flatMap] at hf
    obtain ⟨pkg, _, hf⟩ := hf
    rw [List.mem_map] at hf
    obtain ⟨inst, _, rfl⟩ := hf
    simp
  rw [hfilter, resultsFoundInstalled]
  apply flatMap_pairs_nodup _ _ hnd
  · intro pkg f hf
    rw [List.mem_map] at hf
    obtain ⟨inst, _, rfl⟩ := hf
    rfl
  · intro pkg
    have hpnodup : ((findPackage fs nodeModulesPath pkg).map FoundPkg.path).Nodup :=
      (find_walkOk fs hwf pkg 5 0 nodeModulesPath []).2
    have hsub : (((findPackage fs nodeModulesPath pkg).filter fun inst =>
        isCompromised (mapOf packages) pkg inst.version).map FoundPkg.path).Nodup :=
      List.Nodup.sublist (List.Sublist.map _ (List.filter_sublist _)) hpnodup
    rw [List.map_map]
    show (((findPackage fs nodeModulesPath pkg).filter fun inst =>
        isCompromised (mapOf packages) pkg inst.version).map fun inst =>
          ((pkg : String), inst.path)).Nodup
    rw [show (fun inst : FoundPkg => ((pkg : String), inst.path)) =
        ((fun pa => ((pkg : String), pa)) ∘ FoundPkg.path) from rfl, ← List.map_map]
    exact List.Nodup.map (fun a b hab => by simpa using hab) hsub

/-- Well-formedness of `pnpmFs`. -/
theorem pnpmFs_wf : pnpmFs.WF := by
  constructor
  · intro p es h
    simp only [pnpmFs] at h
    split_ifs at h <;> cases h <;> decide
  · intro p es h e he
    simp only [pnpmFs] at h
    split_ifs at h <;> cases h <;> simp at he
    · subst he; decide
    · rcases he with he | he <;> subst he <;> decide

/-- Witness for `c9_installed_findings_dedup` at a concrete input. -/
theorem c9_witness :
    (((resultsFoundInNodeModules pnpmFs ["nm"] [("@scope/evil", ["1.0.0"])] []).filter
        fun f => f.type == "installed").map fun f => (f.package, f.path)).Nodup :=
  c9_installed_findings_dedup pnpmFs ["nm"] [("@scope/evil", ["1.0.0"])] [] pnpmFs_wf
    (by decide)

/-! ### C10: the literal version "unknown" -/

/-- A concrete tree with the package `evil` installed but no readable
manifest anywhere, so its version is recorded as `"unknown"`. -/
def c10Fs : FileSystem where
  existsSync := fun p => if p = ["nm"] then true else false
  realpathSync := fun p => some p
  readdirSync := fun p => if p = ["nm"] then some [⟨"evil", true, false⟩] else some []
  pkgJsonVersion := fun _ => none

/-- C10, counterexample: the version string `"unknown"` is matched
against the compromised-version set like any other string, so for the
blacklist entry `("evil", ["unknown"])` — a non-empty set — the
installed copy of `evil` with an unreadable manifest IS reported as an
installed finding, contradicting "never reported". -/
theorem c10_counterexample :
    resultsFoundInstalled c10Fs ["nm"] [("evil", ["unknown"])] =
      [⟨"evil", "unknown", ["nm", "evil"], 0, "installed", ["unknown"]⟩] := by
  simp [resultsFoundInstalled, findPackage, findPackageRecursively, walkEntries, walkList,
    walkEntry, walkScoped, walkScopedEntry, c10Fs, pjoin, splitSlash, splitSlashAux,
    readPkgVersion, strStartsWith, findInPnpmDirectory, pnpmLoop, isCompromised, mapOf,
    normalizeVersion, List.isPrefixOf]

/-- C10, amended: for a blacklist entry with a non-empty
compromised-version set that does not contain the literal string
`"unknown"`, no installed finding for that package ever carries version
`"unknown"` — an instance whose manifest was missing or unparsable is
matched literally and filtered out. -/
theorem c10_unknown_version_not_reported (fs : FileSystem) (nodeModulesPath : Path)
    (packages : List (String × List String)) (pkg : String) (cv : List String)
    (hmap : mapOf packages pkg = some cv) (hne : cv ≠ [])
    (hu : cv.contains "unknown" = false) (f : NodeModulesFinding)
    (hf : f ∈ resultsFoundInstalled fs nodeModulesPath packages) (hp : f.package = pkg) :
    f.version ≠ "unknown" := by
  intro hver
  rw [resultsFoundInstalled, List.mem_flatMap] at hf
  obtain ⟨pkg2, hmem2, hf⟩ := hf
  rw [List.mem_map] at hf
  obtain ⟨inst, hinst, rfl⟩ := hf
  have hpkg2 : pkg2 = pkg := hp
  subst hpkg2
  rw [List.mem_filter] at hinst
  have hcomp := hinst.2
  have hv : inst.version = "unknown" := hver
  rw [hv] at hcomp
  have hnu : normalizeVersion "unknown" = "unknown" := by decide
  have hmem : ("unknown" : String) ∈ cv := by
    simpa [isCompromised, hmap, hnu] using hcomp
  have hnm : ("unknown" : String) ∉ cv := by simpa using hu
  exact hnm hmem

/-- Witness for `c10_unknown_version_not_reported` at a concrete input:
in `cycleFs` the installed `evil` has a readable manifest, so its
finding carries version `"1.0.0"`, not `"unknown"`. -/
theorem c10_witness :
    (⟨"evil", "1.0.0", ["proj", "node_modules", "A", "node_modules", "evil"], 1, "installed",
        ["1.0.0"]⟩ : NodeModulesFinding).version ≠ "unknown" :=
  c10_unknown_version_not_reported cycleFs ["proj", "node_modules"] [("evil", ["1.0.0"])]
    "evil" ["1.0.0"] (by decide) (by decide) (by decide) _
    (by simp [resultsFoundInstalled, findPackage, findPackageRecursively, walkEntries,
      walkList, walkEntry, walkScoped, walkScopedEntry, cycleFs, pjoin, splitSlash,
      splitSlashAux, readPkgVersion, strStartsWith, findInPnpmDirectory, pnpmLoop,
      isCompromised, mapOf, normalizeVersion, List.isPrefixOf])
    rfl

end NpmDetect
